import Mathlib

/-!
Verification of the skim RSVP reader playback/rendering engine (`main.go`)
against its natural-language specification.

Words are modelled as lists of Unicode codepoints (`List Char`), matching the
Go code's use of `[]rune` / `utf8.RuneCountInString`.  Machine integers are
modelled as `Int` (Go `int` overflow is unreachable at the magnitudes involved).
Styled output is modelled as a list of glyphs, each one display column wide,
carrying the highlight flag (ANSI styling does not change display width).
-/

namespace Skim

/-- A display word: its sequence of Unicode codepoints (Go `[]rune`). -/
abbrev Word := List Char

/-- Embeds `calculateORP` (main.go:142-156): ORP offset from the codepoint
count of the word. -/
def calculateORP (word : Word) : Nat :=
  if word.length ≤ 1 then 0
  else if word.length ≤ 5 then 1
  else if word.length ≤ 9 then 2
  else if word.length ≤ 13 then 3
  else 4

/-- Embeds `truncateWord` (main.go:233-239): words over 32 codepoints keep
their first 31 codepoints followed by a three-dot ellipsis. -/
def truncateWord (word : Word) : Word :=
  if word.length ≤ 32 then word
  else word.take 31 ++ ['.', '.', '.']

theorem calculateORP_le_four (w : Word) : calculateORP w ≤ 4 := by
  unfold calculateORP
  split_ifs <;> omega

theorem calculateORP_lt_length (w : Word) (h : w ≠ []) : calculateORP w < w.length := by
  have hw : 0 < w.length := List.length_pos.mpr h
  unfold calculateORP
  split_ifs <;> omega

theorem truncateWord_length (w : Word) :
    (truncateWord w).length = if w.length ≤ 32 then w.length else 34 := by
  unfold truncateWord
  split_ifs with h
  · rfl
  · simp [List.length_take]
    omega

/-- Number of bytes of the UTF-8 encoding of one codepoint (Go strings are
UTF-8; `strings.Builder.Len` counts these bytes). -/
def utf8CharLen (c : Char) : Nat :=
  if c.toNat < 128 then 1
  else if c.toNat < 2048 then 2
  else if c.toNat < 65536 then 3
  else 4

/-- UTF-8 byte length of a codepoint sequence (Go `len(string)`). -/
def utf8Len (s : List Char) : Nat := (s.map utf8CharLen).sum

/-- Embeds the forward-scan loop of `model.View` (main.go:537-539): append
`" " + words[i]` to the builder while the builder's byte length is below the
limit `afterSectionWidth+20` and words remain. -/
def afterScan (rest : List Word) (limit : Nat) (acc : List Char) : List Char :=
  match rest with
  | [] => acc
  | w :: ws => if utf8Len acc < limit then afterScan ws limit (acc ++ ' ' :: w) else acc

/-- The right-context budget of `model.View` (main.go:505-508,535):
`max(0, halfWidth - charsAfterORP)` with `halfWidth = 30`,
`charsAfterORP = wordLen - orpIdx`, where `wordLen` is the codepoint count of
the ORIGINAL word (main.go:506) and `orpIdx` the ORP offset of the truncated
word (main.go:494-496). -/
def rightBudget (words : List Word) (currentIdx : Nat) : Nat :=
  let word := words.getD currentIdx []
  let truncatedWord := truncateWord word
  let orpIdx : Int := calculateORP truncatedWord
  (max 0 (30 - ((word.length : Int) - orpIdx))).toNat

/-- Embeds the right-context computation of `model.View` (main.go:535-547):
scan forward byte-bounded, then trim to the leading `afterSectionWidth`
codepoints or right-pad with spaces. -/
def contextAfterGo (words : List Word) (currentIdx : Nat) : List Char :=
  let afterSectionWidth := rightBudget words currentIdx
  let afterStr := afterScan (words.drop (currentIdx + 1)) (afterSectionWidth + 20) []
  if afterSectionWidth < afterStr.length then afterStr.take afterSectionWidth
  else if 0 < afterSectionWidth then afterStr ++ List.replicate (afterSectionWidth - afterStr.length) ' '
  else []

/-- The full concatenation of the words after the current one, each preceded
by one space (no scan bound). -/
def fullTail (words : List Word) (currentIdx : Nat) : List Char :=
  ((words.drop (currentIdx + 1)).map (fun w => ' ' :: w)).flatten

/-- Modelled from the spec's words (§4.6), for comparison with
`contextAfterGo`: the leading `N` codepoints of the concatenation of all
following words (each preceded by one space), right-padded with spaces to
exactly `N` codepoints when the concatenation is shorter. -/
def rightContextSpec (words : List Word) (currentIdx : Nat) : List Char :=
  let N := rightBudget words currentIdx
  let full := fullTail words currentIdx
  if N ≤ full.length then full.take N
  else full ++ List.replicate (N - full.length) ' '

/-- One rendered display cell: a codepoint and whether it is the
ORP-highlighted glyph.  Styling changes colors, not widths, so a glyph is
exactly one display column. -/
structure Glyph where
  ch : Char
  highlighted : Bool
deriving DecidableEq, Repr

/-- Embeds the word-line assembly of `model.View` (main.go:492-554):
`spaces(leftPadding) + contextBefore + renderedWord + contextAfter`,
producing the styled line as glyphs. -/
def wordLineGlyphs (words : List Word) (currentIdx : Nat) (focusCol : Int) : List Glyph :=
  let word := words.getD currentIdx []
  let truncatedWord := truncateWord word
  let orpIdx := calculateORP truncatedWord
  let runes := truncatedWord
  let halfWidth : Int := 30
  let charsBeforeORP : Int := orpIdx
  let beforeSectionWidth : Nat := (max 0 (halfWidth - charsBeforeORP)).toNat
  let beforeStr : List Char := ((words.take currentIdx).map (fun w => w ++ [' '])).flatten
  let contextBefore : List Char :=
    if beforeSectionWidth < beforeStr.length then
      beforeStr.drop (beforeStr.length - beforeSectionWidth)
    else if 0 < beforeSectionWidth then
      List.replicate (beforeSectionWidth - beforeStr.length) ' ' ++ beforeStr
    else []
  let renderedWord : List Glyph :=
    runes.enum.map (fun p => ⟨p.2, p.1 == orpIdx⟩)
  let contextAfter : List Char := contextAfterGo words currentIdx
  let leftPadding : Nat := (max 0 (focusCol - halfWidth)).toNat
  List.replicate leftPadding (Glyph.mk ' ' false)
    ++ contextBefore.map (fun c => Glyph.mk c false)
    ++ renderedWord
    ++ contextAfter.map (fun c => Glyph.mk c false)

/-- The playback-relevant fields of the Bubble Tea `model` (main.go:259-275). -/
structure Model where
  words : List Word
  currentIdx : Int
  wpm : Int
  paused : Bool
  width : Int
  height : Int
  quit : Bool
  focusCol : Int
  showPicker : Bool
  selectedFile : String
  fileError : String
deriving DecidableEq, Repr

/-- Embeds the file-selection load path of `model.Update` (main.go:346-358),
after tokenization produced `ws`: a non-empty list replaces the document and
resets position; an empty list records an error message. -/
def loadSelectedWords (m : Model) (path : String) (ws : List Word) : Model :=
  if 0 < ws.length then
    { m with words := ws, currentIdx := 0, paused := true,
             selectedFile := path, fileError := "", showPicker := false }
  else
    { m with fileError := "No words found in file", showPicker := false }

/-- Embeds the `Prev` key case of `model.Update` (main.go:390-394). -/
def updatePrev (m : Model) : Model :=
  if 0 < m.currentIdx then { m with currentIdx := m.currentIdx - 1 } else m

/-- Embeds the `Next` key case of `model.Update` (main.go:396-400). -/
def updateNext (m : Model) : Model :=
  if m.currentIdx < (m.words.length : Int) - 1 then
    { m with currentIdx := m.currentIdx + 1 }
  else m

/-- Embeds the `Faster` key case of `model.Update` (main.go:402-407). -/
def updateFaster (m : Model) : Model :=
  let w := m.wpm + 25
  { m with wpm := if 1000 < w then 1000 else w }

/-- Embeds the `Slower` key case of `model.Update` (main.go:409-414). -/
def updateSlower (m : Model) : Model :=
  let w := m.wpm - 25
  { m with wpm := if w < 50 then 50 else w }

/-- Embeds the `JumpBack` key case of `model.Update` (main.go:416-421). -/
def updateJumpBack (m : Model) : Model :=
  let i := m.currentIdx - 10
  { m with currentIdx := if i < 0 then 0 else i }

/-- Embeds the `JumpFwd` key case of `model.Update` (main.go:423-428). -/
def updateJumpFwd (m : Model) : Model :=
  let i := m.currentIdx + 10
  { m with currentIdx := if (m.words.length : Int) ≤ i then (m.words.length : Int) - 1 else i }

/-- Embeds the `Restart` key case of `model.Update` (main.go:430-433). -/
def updateRestart (m : Model) : Model :=
  { m with currentIdx := 0, paused := true }

/-- Embeds the `tickMsg` case of `model.Update` (main.go:436-445).  The
boolean is whether a `tickCmd` rescheduling command is returned. -/
def updateTick (m : Model) : Model × Bool :=
  if ¬m.paused ∧ m.currentIdx < (m.words.length : Int) - 1 then
    ({ m with currentIdx := m.currentIdx + 1 }, true)
  else
    let m' := if (m.words.length : Int) - 1 ≤ m.currentIdx then { m with paused := true } else m
    if ¬m'.paused then (m', true) else (m', false)

theorem updatePrev_words (m : Model) : (updatePrev m).words = m.words := by
  unfold updatePrev; split <;> rfl

theorem updatePrev_currentIdx (m : Model) :
    (updatePrev m).currentIdx =
      if 0 < m.currentIdx then m.currentIdx - 1 else m.currentIdx := by
  unfold updatePrev; split <;> rfl

theorem updateNext_words (m : Model) : (updateNext m).words = m.words := by
  unfold updateNext; split <;> rfl

theorem updateNext_currentIdx (m : Model) :
    (updateNext m).currentIdx =
      if m.currentIdx < (m.words.length : Int) - 1 then m.currentIdx + 1
      else m.currentIdx := by
  unfold updateNext; split <;> rfl

theorem updateJumpBack_words (m : Model) : (updateJumpBack m).words = m.words := rfl

theorem updateJumpBack_currentIdx (m : Model) :
    (updateJumpBack m).currentIdx =
      if m.currentIdx - 10 < 0 then 0 else m.currentIdx - 10 := rfl

theorem updateJumpFwd_words (m : Model) : (updateJumpFwd m).words = m.words := rfl

theorem updateJumpFwd_currentIdx (m : Model) :
    (updateJumpFwd m).currentIdx =
      if (m.words.length : Int) ≤ m.currentIdx + 10 then (m.words.length : Int) - 1
      else m.currentIdx + 10 := rfl

theorem updateRestart_words (m : Model) : (updateRestart m).words = m.words := rfl

theorem updateRestart_currentIdx (m : Model) : (updateRestart m).currentIdx = 0 := rfl

theorem updateTick_fst_words (m : Model) : (updateTick m).1.words = m.words := by
  unfold updateTick
  dsimp only
  split_ifs <;> rfl

theorem updateTick_fst_currentIdx (m : Model) :
    (updateTick m).1.currentIdx =
      if m.paused = false ∧ m.currentIdx < (m.words.length : Int) - 1 then
        m.currentIdx + 1
      else m.currentIdx := by
  unfold updateTick
  dsimp only
  split_ifs with h1 h2 h3 h4 <;> simp_all

/-- Embeds `tickCmd` (main.go:310-315): `time.Minute / time.Duration(wpm)`,
i.e. the integer number of nanoseconds in one minute divided by the rate
(Go `time.Duration` counts nanoseconds). -/
def tickIntervalNs (wpm : Nat) : Nat := 60000000000 / wpm

/-- The shape of the string returned by `model.View` (main.go:456-496): which
top-level branch produced it, and the word line for the full frame.  Frame
parts no claim refers to (progress bar, status line, help) are not carried. -/
inductive ViewOut where
  | blank
  | loading
  | picker
  | fileErrorMsg (e : String)
  | noContent
  | frame (wordLine : List Glyph)
deriving DecidableEq, Repr

/-- Embeds the branch structure of `model.View` (main.go:456-496,554). -/
def view (m : Model) : ViewOut :=
  if m.quit then ViewOut.blank
  else if m.width = 0 ∨ m.height = 0 then ViewOut.loading
  else if m.showPicker then ViewOut.picker
  else if m.words.length = 0 then
    if m.fileError ≠ "" then ViewOut.fileErrorMsg m.fileError else ViewOut.noContent
  else ViewOut.frame (wordLineGlyphs m.words m.currentIdx.toNat m.focusCol)

/-! ### Claim theorems -/

/-- Concrete clamp, as the spec phrases `setSpeed`. -/
def clampInt (lo hi x : Int) : Int := max lo (min hi x)

/-- A 40-codepoint word, used as a concrete truncation witness. -/
def w40 : Word := List.replicate 40 'b'

/-- A concrete playback state at the top speed boundary. -/
def mTop : Model :=
  { words := [['h', 'i']], currentIdx := 0, wpm := 1000, paused := true,
    width := 80, height := 24, quit := false, focusCol := 40,
    showPicker := false, selectedFile := "", fileError := "" }

/-- A concrete playing state on the last word of
`["The", "quick", "brown", "fox"]` at 500 WPM. -/
def mFox : Model :=
  { words := [['T', 'h', 'e'], ['q', 'u', 'i', 'c', 'k'],
              ['b', 'r', 'o', 'w', 'n'], ['f', 'o', 'x']],
    currentIdx := 3, wpm := 500, paused := false,
    width := 80, height := 24, quit := false, focusCol := 40,
    showPicker := false, selectedFile := "", fileError := "" }

/-- A concrete state with a one-word document loaded. -/
def mDoc : Model :=
  { words := [['a']], currentIdx := 0, wpm := 500, paused := true,
    width := 80, height := 24, quit := false, focusCol := 40,
    showPicker := false, selectedFile := "", fileError := "" }

/-- A concrete idle state: no words loaded. -/
def mIdle : Model :=
  { words := [], currentIdx := 0, wpm := 500, paused := true,
    width := 80, height := 24, quit := false, focusCol := 40,
    showPicker := false, selectedFile := "", fileError := "" }

/-- The word "extraordinarily" (15 codepoints). -/
def wExtra : Word :=
  ['e', 'x', 't', 'r', 'a', 'o', 'r', 'd', 'i', 'n', 'a', 'r', 'i', 'l', 'y']

/-- C6: a word over 32 codepoints is displayed as its first 31 codepoints
followed by the three-dot ellipsis (34 codepoints total, so a 40-codepoint
word becomes 34); a word of at most 32 codepoints is displayed unchanged; and
the ORP offset computed on the truncated form is always a valid index into
the displayed string (for the non-empty words the tokenizer produces). -/
theorem truncate_orp_spec (w : Word) (h : w ≠ []) :
    (32 < w.length → truncateWord w = w.take 31 ++ ['.', '.', '.'] ∧
      (truncateWord w).length = 34) ∧
    (w.length ≤ 32 → truncateWord w = w) ∧
    calculateORP (truncateWord w) < (truncateWord w).length := by
  refine ⟨fun h32 => ⟨?_, ?_⟩, fun hle => ?_, ?_⟩
  · unfold truncateWord
    rw [if_neg (by omega)]
  · rw [truncateWord_length, if_neg (by omega)]
  · unfold truncateWord
    rw [if_pos hle]
  · by_cases h32 : w.length ≤ 32
    · have he : truncateWord w = w := by unfold truncateWord; rw [if_pos h32]
      rw [he]
      exact calculateORP_lt_length w h
    · have hl : (truncateWord w).length = 34 := by
        rw [truncateWord_length, if_neg h32]
      have := calculateORP_le_four (truncateWord w)
      omega

/-- C6 witness: the 40-codepoint word is displayed as 34 codepoints with a
valid highlight index. -/
theorem truncate_orp_spec_witness :
    (truncateWord w40).length = 34 ∧
    calculateORP (truncateWord w40) < (truncateWord w40).length := by
  have h := truncate_orp_spec w40 (by decide)
  exact ⟨(h.1 (by decide)).2, h.2.2⟩

/-- C7 counterexample: at the empty string (codepoint count 0) the claimed
bound `orpOffset < min(length, 33)` fails, since the offset is 0 and
`min(0, 33) = 0`. -/
theorem orp_bound_fails_empty :
    calculateORP (truncateWord []) = 0 ∧
    ¬ calculateORP (truncateWord []) < min ([] : Word).length 33 := by decide

/-- C7 amended: the ORP offset follows the length table (0 for length ≤ 1,
1 for 2..5, 2 for 6..9, 3 for 10..13, 4 for length ≥ 14, so
"extraordinarily" with 15 codepoints yields 4), is monotone non-decreasing in
the codepoint count, and for every NON-EMPTY word is strictly below
`min(length, 33)` after truncation. -/
theorem orp_table_monotone_bound (w v : Word) (hmono : w.length ≤ v.length)
    (hne : w ≠ []) :
    (w.length ≤ 1 → calculateORP w = 0) ∧
    (2 ≤ w.length → w.length ≤ 5 → calculateORP w = 1) ∧
    (6 ≤ w.length → w.length ≤ 9 → calculateORP w = 2) ∧
    (10 ≤ w.length → w.length ≤ 13 → calculateORP w = 3) ∧
    (14 ≤ w.length → calculateORP w = 4) ∧
    calculateORP w ≤ calculateORP v ∧
    calculateORP (truncateWord w) < min w.length 33 := by
  refine ⟨?_, ?_, ?_, ?_, ?_, ?_, ?_⟩
  · intro h1
    unfold calculateORP
    split_ifs
    all_goals omega
  · intro h2 h5; unfold calculateORP; split_ifs <;> omega
  · intro h6 h9; unfold calculateORP; split_ifs <;> omega
  · intro h10 h13; unfold calculateORP; split_ifs <;> omega
  · intro h14; unfold calculateORP; split_ifs <;> omega
  · unfold calculateORP; split_ifs <;> omega
  · by_cases h32 : w.length ≤ 32
    · have he : truncateWord w = w := by unfold truncateWord; rw [if_pos h32]
      rw [he]
      have h1 := calculateORP_lt_length w hne
      have h2 := calculateORP_le_four w
      omega
    · have hl : (truncateWord w).length = 34 := by
        rw [truncateWord_length, if_neg h32]
      have h2 := calculateORP_le_four (truncateWord w)
      omega

/-- C7 witness: "extraordinarily" (15 codepoints) is untruncated, gets ORP
offset 4, and satisfies the amended bound. -/
theorem orp_table_monotone_bound_witness :
    calculateORP wExtra = 4 ∧
    calculateORP (truncateWord wExtra) < min wExtra.length 33 := by
  have h := orp_table_monotone_bound wExtra wExtra (le_refl _) (by decide)
  exact ⟨h.2.2.2.2.1 (by decide), h.2.2.2.2.2.2⟩

/-- C8: within the maintained invariant `50 ≤ wpm ≤ 1000`, the speed keys
implement `wpm = clamp(wpm ± 25, 50, 1000)`, and the operations are
idempotent at the boundaries (1000 stays 1000 on increase, 50 stays 50 on
decrease). -/
theorem setSpeed_clamp_spec (m : Model) (h1 : 50 ≤ m.wpm) (h2 : m.wpm ≤ 1000) :
    (updateFaster m).wpm = clampInt 50 1000 (m.wpm + 25) ∧
    (updateSlower m).wpm = clampInt 50 1000 (m.wpm - 25) ∧
    (m.wpm = 1000 → (updateFaster m).wpm = 1000) ∧
    (m.wpm = 50 → (updateSlower m).wpm = 50) := by
  unfold updateFaster updateSlower clampInt
  refine ⟨?_, ?_, ?_, ?_⟩
  all_goals simp
  all_goals omega

/-- C8 witness: at the upper boundary 1000, a further increase stays at 1000
and a decrease yields 975. -/
theorem setSpeed_clamp_spec_witness :
    (updateFaster mTop).wpm = 1000 ∧ (updateSlower mTop).wpm = 975 := by
  have h := setSpeed_clamp_spec mTop (by decide) (by decide)
  exact ⟨h.2.2.1 rfl, h.2.1.trans (by decide)⟩

/-- C9 counterexample: at `wpm = 700` (inside [50, 1000]) the code's interval
`time.Minute / wpm` is 85714285 nanoseconds, which is neither the claimed
integer-millisecond value `(60000 / 700) ms = 85000000 ns` nor exactly
`60000/700` milliseconds. -/
theorem tickInterval_not_integer_ms :
    tickIntervalNs 700 = 85714285 ∧
    tickIntervalNs 700 ≠ 60000 / 700 * 1000000 ∧
    tickIntervalNs 700 * 700 ≠ 60000000000 := by decide

/-- C9 amended: the wake-up interval is `⌊60·10⁹ / wpm⌋` nanoseconds (the
integer nanosecond minute divided by the rate); whenever `wpm` divides 60000
this equals exactly `60000 / wpm` milliseconds. -/
theorem tickInterval_ns_spec (wpm : Nat) (h1 : 50 ≤ wpm) (h2 : wpm ∣ 60000) :
    tickIntervalNs wpm = 60000 / wpm * 1000000 ∧
    tickIntervalNs wpm * wpm = 60000000000 := by
  obtain ⟨k, hk⟩ := h2
  have hpos : 0 < wpm := by omega
  have e1 : (60000000000 : Nat) = wpm * (k * 1000000) := by
    rw [show (60000000000 : Nat) = 60000 * 1000000 from rfl, hk, Nat.mul_assoc]
  have e2 : tickIntervalNs wpm = k * 1000000 := by
    unfold tickIntervalNs
    rw [e1, Nat.mul_div_cancel_left _ hpos]
  have e3 : 60000 / wpm = k := by
    rw [hk, Nat.mul_div_cancel_left _ hpos]
  refine ⟨by rw [e2, e3], by rw [e2, e1]; ring⟩

/-- C9 witness: at `wpm = 500` (which divides 60000) the interval is
120000000 ns = 120 ms = 60000/500 ms. -/
theorem tickInterval_ns_spec_witness :
    tickIntervalNs 500 = 60000 / 500 * 1000000 ∧
    tickIntervalNs 500 * 500 = 60000000000 :=
  tickInterval_ns_spec 500 (by decide) (by decide)

/-- C2 counterexample: with the one-word document `["a"]` loaded, selecting a
file that tokenizes to zero words does NOT put the engine in the Idle state:
the previous document, its index and pause state are retained, and the view
does not show the no-content state. -/
theorem load_empty_retains_previous_document :
    (loadSelectedWords mDoc "empty.txt" []).words = [['a']] ∧
    (loadSelectedWords mDoc "empty.txt" []).words ≠ [] ∧
    view (loadSelectedWords mDoc "empty.txt" []) ≠ ViewOut.noContent ∧
    (loadSelectedWords mDoc "empty.txt" []).paused = mDoc.paused := by decide

/-- C2 amended: selecting a file whose tokenization is non-empty moves any
state to Paused with `currentIndex = 0` and installs the new words; selecting
one whose tokenization is empty leaves the previous words, index and pause
state untouched and only records the error message "No words found in file"
(shown by the renderer only while no document is loaded). -/
theorem loadSelectedWords_spec (m : Model) (path : String) (ws : List Word) :
    (ws ≠ [] →
      (loadSelectedWords m path ws).words = ws ∧
      (loadSelectedWords m path ws).currentIdx = 0 ∧
      (loadSelectedWords m path ws).paused = true ∧
      (loadSelectedWords m path ws).fileError = "") ∧
    (ws = [] →
      (loadSelectedWords m path ws).words = m.words ∧
      (loadSelectedWords m path ws).currentIdx = m.currentIdx ∧
      (loadSelectedWords m path ws).paused = m.paused ∧
      (loadSelectedWords m path ws).fileError = "No words found in file") := by
  constructor
  · intro hne
    have hpos : 0 < ws.length := List.length_pos.mpr hne
    unfold loadSelectedWords
    rw [if_pos hpos]
    exact ⟨rfl, rfl, rfl, rfl⟩
  · intro he
    subst he
    unfold loadSelectedWords
    rw [if_neg (by simp)]
    exact ⟨rfl, rfl, rfl, rfl⟩

/-- C2 witness: loading `["hi"]` over the one-word document resets the
position and installs the new words; loading zero words keeps the old ones. -/
theorem loadSelectedWords_spec_witness :
    ((loadSelectedWords mDoc "doc.txt" [['h', 'i']]).words = [['h', 'i']] ∧
      (loadSelectedWords mDoc "doc.txt" [['h', 'i']]).currentIdx = 0 ∧
      (loadSelectedWords mDoc "doc.txt" [['h', 'i']]).paused = true ∧
      (loadSelectedWords mDoc "doc.txt" [['h', 'i']]).fileError = "") ∧
    ((loadSelectedWords mDoc "doc.txt" []).words = mDoc.words ∧
      (loadSelectedWords mDoc "doc.txt" []).currentIdx = mDoc.currentIdx ∧
      (loadSelectedWords mDoc "doc.txt" []).paused = mDoc.paused ∧
      (loadSelectedWords mDoc "doc.txt" []).fileError = "No words found in file") :=
  ⟨(loadSelectedWords_spec mDoc "doc.txt" [['h', 'i']]).1 (by decide),
   (loadSelectedWords_spec mDoc "doc.txt" []).2 rfl⟩

/-- C3: with a non-empty word sequence and playback not paused, a clock tick
below the last word advances the index by exactly one, stays unpaused, and
reschedules one tick; a tick at the last word (index `len-1`) pauses, leaves
the index unchanged, and returns no rescheduling command. -/
theorem tick_playing_spec (m : Model) (_h1 : m.words ≠ []) (h2 : m.paused = false) :
    (m.currentIdx < (m.words.length : Int) - 1 →
      (updateTick m).1.currentIdx = m.currentIdx + 1 ∧
      (updateTick m).1.paused = false ∧
      (updateTick m).2 = true) ∧
    (m.currentIdx = (m.words.length : Int) - 1 →
      (updateTick m).1.currentIdx = m.currentIdx ∧
      (updateTick m).1.paused = true ∧
      (updateTick m).2 = false) := by
  constructor
  · intro hlt
    unfold updateTick
    rw [if_pos ⟨by simp [h2], hlt⟩]
    exact ⟨rfl, h2, rfl⟩
  · intro heq
    unfold updateTick
    rw [if_neg (by omega)]
    simp only
    rw [if_pos (le_of_eq heq.symm)]
    rw [if_neg (by simp)]
    exact ⟨rfl, rfl, rfl⟩

/-- C3 witness: in `["The","quick","brown","fox"]` at 500 WPM, a tick at the
last word (index 3) pauses, keeps the index, and does not reschedule. -/
theorem tick_playing_spec_witness :
    (updateTick mFox).1.currentIdx = 3 ∧
    (updateTick mFox).1.paused = true ∧
    (updateTick mFox).2 = false := by
  have h := (tick_playing_spec mFox (by decide) rfl).2 (by decide)
  exact ⟨h.1, h.2.1, h.2.2⟩

/-- The index invariant of the playback state. -/
def indexInBounds (m : Model) : Prop :=
  0 ≤ m.currentIdx ∧ m.currentIdx < (m.words.length : Int)

/-- C4: starting from any in-range index of a non-empty sequence, each of
step(-1), step(+1), jump(-10), jump(+10), restart and tick lands back in
`[0, len)`; the jump and step moves are exactly boundary clamps (never wraps,
never errors). -/
theorem index_transitions_in_bounds (m : Model)
    (h0 : 0 ≤ m.currentIdx) (h1 : m.currentIdx < (m.words.length : Int)) :
    indexInBounds (updatePrev m) ∧
    (updatePrev m).currentIdx = max 0 (m.currentIdx - 1) ∧
    indexInBounds (updateNext m) ∧
    (updateNext m).currentIdx = min (m.currentIdx + 1) ((m.words.length : Int) - 1) ∧
    indexInBounds (updateJumpBack m) ∧
    (updateJumpBack m).currentIdx = max 0 (m.currentIdx - 10) ∧
    indexInBounds (updateJumpFwd m) ∧
    (updateJumpFwd m).currentIdx = min (m.currentIdx + 10) ((m.words.length : Int) - 1) ∧
    indexInBounds (updateRestart m) ∧
    indexInBounds (updateTick m).1 := by
  unfold indexInBounds
  rw [updatePrev_words, updatePrev_currentIdx, updateNext_words,
    updateNext_currentIdx, updateJumpBack_words, updateJumpBack_currentIdx,
    updateJumpFwd_words, updateJumpFwd_currentIdx, updateRestart_words,
    updateRestart_currentIdx, updateTick_fst_words, updateTick_fst_currentIdx]
  refine ⟨?_, ?_, ?_, ?_, ?_, ?_, ?_, ?_, ?_, ?_⟩
  · split_ifs <;> omega
  · split_ifs <;> omega
  · split_ifs <;> omega
  · split_ifs <;> omega
  · split_ifs <;> omega
  · split_ifs <;> omega
  · split_ifs <;> omega
  · split_ifs <;> omega
  · omega
  · split_ifs with h
    · obtain ⟨hp, hlt⟩ := h
      omega
    · omega

/-- C4 witness: in the four-word sequence at index 3, jump(-10) clamps to 0
and jump(+10) clamps to the last index 3. -/
theorem index_transitions_in_bounds_witness :
    indexInBounds (updateJumpBack mFox) ∧
    (updateJumpBack mFox).currentIdx = 0 ∧
    (updateJumpFwd mFox).currentIdx = 3 := by
  have h := index_transitions_in_bounds mFox (by decide) (by decide)
  refine ⟨h.2.2.2.2.1, ?_, ?_⟩
  · rw [h.2.2.2.2.2.1]; decide
  · rw [h.2.2.2.2.2.2.2.1]; decide

/-- C10: in the idle state (no words, index 0) a jump-forward stores
`len - 1 = -1`, a negative index, while prev/next/jump-back leave it at 0;
the view never renders a word frame while the sequence is empty (so the
negative index is never used to index the sequence), and any subsequent load
of a non-empty tokenization resets the index to 0. -/
theorem idle_index_and_view_spec (m : Model) (hw : m.words = [])
    (hi : m.currentIdx = 0) :
    (updateJumpFwd m).currentIdx = -1 ∧
    (updatePrev m).currentIdx = 0 ∧
    (updateNext m).currentIdx = 0 ∧
    (updateJumpBack m).currentIdx = 0 ∧
    (∀ g : List Glyph, view m ≠ ViewOut.frame g) ∧
    (∀ (path : String) (ws : List Word), ws ≠ [] →
      (loadSelectedWords m path ws).currentIdx = 0 ∧
      (loadSelectedWords m path ws).words = ws) := by
  refine ⟨?_, ?_, ?_, ?_, ?_, ?_⟩
  · rw [updateJumpFwd_currentIdx, hw, hi]
    decide
  · rw [updatePrev_currentIdx, hi]
    decide
  · rw [updateNext_currentIdx, hw, hi]
    decide
  · rw [updateJumpBack_currentIdx, hi]
    decide
  · intro g
    unfold view
    split_ifs with hq hl hp hz he <;> simp_all
  · intro path ws hne
    have hpos : 0 < ws.length := List.length_pos.mpr hne
    unfold loadSelectedWords
    rw [if_pos hpos]
    exact ⟨rfl, rfl⟩

/-- C10 witness: from the concrete idle state, jump-forward yields -1, the
other moves keep 0, the view is not a word frame, and loading `["hi"]`
resets the index to 0. -/
theorem idle_index_and_view_spec_witness :
    (updateJumpFwd mIdle).currentIdx = -1 ∧
    (updatePrev mIdle).currentIdx = 0 ∧
    (updateNext mIdle).currentIdx = 0 ∧
    (updateJumpBack mIdle).currentIdx = 0 ∧
    view mIdle ≠ ViewOut.frame [] ∧
    (loadSelectedWords mIdle "doc.txt" [['h', 'i']]).currentIdx = 0 := by
  have h := idle_index_and_view_spec mIdle rfl rfl
  exact ⟨h.1, h.2.1, h.2.2.1, h.2.2.2.1, h.2.2.2.2.1 [],
    (h.2.2.2.2.2 "doc.txt" [['h', 'i']] (by decide)).1⟩

/-- A 33-codepoint word: the single length at which the code's word-line
width deviates from the constant. -/
def w33 : Word := List.replicate 33 'a'

/-- C1 (evaluation at the failing input): with `focusColumn = 40` and
`H = 30`, a sequence whose current word has 33 codepoints produces a word
line of 71 display columns, while a 2-codepoint word produces 70 — the total
width is NOT independent of the current word's length.  (The ORP-highlighted
glyph does still sit at column 40 in both.)  The deviation arises because
`model.View` computes `charsAfterORP` from the pre-truncation word length
(main.go:506) instead of the displayed (truncated) length. -/
theorem wordLine_width_not_constant_at_33 :
    (wordLineGlyphs [w33] 0 40).length = 71 ∧
    (wordLineGlyphs [['h', 'i']] 0 40).length = 70 ∧
    (wordLineGlyphs [w33] 0 40).findIdx (fun g => g.highlighted) = 40 ∧
    (wordLineGlyphs [['h', 'i']] 0 40).findIdx (fun g => g.highlighted) = 40 := by
  decide

/-- A word list whose tail contains multibyte (3-byte UTF-8) codepoints:
after the current word "abc" come sixteen U+4E00 codepoints and fifteen
ASCII codepoints. -/
def cwsMulti : List Word :=
  [['a', 'b', 'c'], List.replicate 16 '一', List.replicate 15 'x']

/-- An all-ASCII word list. -/
def cwsAscii : List Word :=
  [['h', 'i'], ['t', 'h', 'e', 'r', 'e'], ['w', 'o', 'r', 'l', 'd']]

/-- C5 counterexample: the forward scan's stop condition counts UTF-8 bytes,
not codepoints, so with a multibyte tail the scan stops after 17 codepoints
(49 bytes ≥ budget 28 + 20) and pads with spaces, even though the full
concatenation of the following words has 33 codepoints — more than the
budget.  The result is not the leading 28 codepoints of that concatenation. -/
theorem contextAfter_ne_spec_multibyte :
    rightBudget cwsMulti 0 = 28 ∧
    contextAfterGo cwsMulti 0 ≠ rightContextSpec cwsMulti 0 := by
  decide

theorem utf8CharLen_eq_one (c : Char) (h : c.toNat < 128) : utf8CharLen c = 1 := by
  unfold utf8CharLen
  rw [if_pos h]

theorem utf8Len_eq_length (s : List Char) (h : ∀ c ∈ s, c.toNat < 128) :
    utf8Len s = s.length := by
  induction s with
  | nil => rfl
  | cons c cs ih =>
    have hc : utf8CharLen c = 1 := utf8CharLen_eq_one c (h c (by simp))
    have hcs : utf8Len cs = cs.length := ih (fun x hx => h x (by simp [hx]))
    unfold utf8Len at hcs ⊢
    simp [hc, hcs]
    omega

/-- The scan loop returns the accumulator extended by a word-boundary prefix
of the full space-prefixed concatenation; it only stops short of the full
concatenation once the byte limit is reached. -/
theorem afterScan_split (rest : List Word) (limit : Nat) (acc : List Char) :
    ∃ p t, (rest.map (fun w => ' ' :: w)).flatten = p ++ t ∧
      afterScan rest limit acc = acc ++ p ∧
      (t = [] ∨ limit ≤ utf8Len (acc ++ p)) := by
  induction rest generalizing acc with
  | nil => exact ⟨[], [], by simp, by simp [afterScan], Or.inl rfl⟩
  | cons w ws ih =>
    by_cases hlt : utf8Len acc < limit
    · obtain ⟨p, t, hft, hres, hd⟩ := ih (acc ++ ' ' :: w)
      refine ⟨' ' :: w ++ p, t, ?_, ?_, ?_⟩
      · simp only [List.map_cons, List.flatten_cons, hft, List.append_assoc]
      · rw [afterScan, if_pos hlt, hres, List.append_assoc]
      · rcases hd with h | h
        · exact Or.inl h
        · right
          rwa [List.append_assoc] at h
    · refine ⟨[], ((w :: ws).map (fun v => ' ' :: v)).flatten, by simp, ?_, ?_⟩
      · rw [afterScan, if_neg hlt, List.append_nil]
      · right
        rw [List.append_nil]
        omega

/-- C5 amended: the right context is built from the byte-bounded scan — words
are appended while the accumulated UTF-8 byte length is below budget + 20 —
then trimmed to the leading `N` codepoints or right-padded with spaces to
exactly `N`.  When the following words are all ASCII (one byte per
codepoint, as the byte-counted margin implicitly assumes), this equals the
claimed leading-`N`-codepoints of the full concatenation of following words,
right-padded when that concatenation is shorter. -/
theorem contextAfter_ascii_spec (words : List Word) (i : Nat)
    (h : ∀ w ∈ words.drop (i + 1), ∀ c ∈ w, c.toNat < 128) :
    contextAfterGo words i = rightContextSpec words i := by
  obtain ⟨p, t, hsplit, hres, hd⟩ :=
    afterScan_split (words.drop (i + 1)) (rightBudget words i + 20) []
  rw [List.nil_append] at hres hd
  have hfull : fullTail words i = p ++ t := by
    unfold fullTail
    exact hsplit
  have hpc : ∀ c ∈ p, c.toNat < 128 := by
    intro c hc
    have hc2 : c ∈ fullTail words i := by
      rw [hfull]
      exact List.mem_append_left _ hc
    unfold fullTail at hc2
    rw [List.mem_flatten] at hc2
    obtain ⟨l, hl, hcl⟩ := hc2
    rw [List.mem_map] at hl
    obtain ⟨w, hw, rfl⟩ := hl
    rcases List.mem_cons.mp hcl with rfl | hcw
    · decide
    · exact h w hw c hcw
  have hplen : utf8Len p = p.length := utf8Len_eq_length p hpc
  unfold contextAfterGo rightContextSpec
  dsimp only
  rw [hres, hfull]
  rcases hd with rfl | hle
  · simp only [List.append_nil]
    by_cases h1 : rightBudget words i < p.length
    · rw [if_pos h1, if_pos (Nat.le_of_lt h1)]
    · rw [if_neg h1]
      by_cases h0 : 0 < rightBudget words i
      · rw [if_pos h0]
        by_cases h2 : rightBudget words i ≤ p.length
        · have hNp : rightBudget words i = p.length := by omega
          rw [if_pos h2, List.take_of_length_le (by omega), hNp, Nat.sub_self]
          simp
        · rw [if_neg h2]
      · have hp0 : p.length = 0 := by omega
        have hple : rightBudget words i ≤ p.length := by omega
        rw [if_pos hple]
        have hN0 : rightBudget words i = 0 := by omega
        rw [hN0]
        simp
  · rw [hplen] at hle
    have hNlt : rightBudget words i < p.length := by omega
    rw [if_pos hNlt]
    have hNfull : rightBudget words i ≤ (p ++ t).length := by
      rw [List.length_append]
      omega
    have hsub : rightBudget words i - p.length = 0 := Nat.sub_eq_zero_of_le (by omega)
    rw [if_pos hNfull, List.take_append_eq_append_take, hsub]
    simp

/-- C5 witness: on an all-ASCII sequence the code's right context equals the
spec's leading-codepoints-then-pad description. -/
theorem contextAfter_ascii_spec_witness :
    contextAfterGo cwsAscii 0 = rightContextSpec cwsAscii 0 :=
  contextAfter_ascii_spec cwsAscii 0 (by decide)

end Skim
